import Mathlib

/-!
Verification of the range-partitioned, paginated enumeration engine of
`src/helpers/chain.ts` (class `ChainHelper`), via a shallow embedding of its
core routines: `getTableAll` (RangePartitioner), `checkTableMore`
(CursorPaginator), `getActions` (SequenceScanner) and `getAllActionsBatch`
(BatchDispatcher), together with the JavaScript value coercions that the
source relies on (truthiness, strict equality, `Array.splice` index
coercion, `BigNumber` rounding).

Keys are modelled as `Nat` (the source uses arbitrary-precision `BigNumber`
values inside `[0, 2^64-1]`); JavaScript numbers that can be negative
(`limit`, `upper_bound` sentinels, primary-key values) are modelled as `Int`.
The remote RPC endpoints (`_eos.getTableRows`, `_eos.getActions`) are not
part of the repository; they are modelled from the spec, as noted on each
such definition.
-/

namespace EosPlayer

/-! ## JavaScript values, for the `upperNum` sentinel of `getTableAll`
(`chain.ts` lines 500-501) -/

/-- A JavaScript value as passed for `upperNum : string | number` (plus
`undefined` for an omitted argument).  A numeric string is carried as the
integer it denotes; every numeric string is non-empty, hence truthy. -/
inductive JsVal : Type
  | vnum (n : Int)
  | vstr (n : Int)
  | vundef
deriving DecidableEq

/-- JavaScript truthiness of a `JsVal`: the number `0` is falsy, a numeric
string is always non-empty hence truthy, `undefined` is falsy. -/
def jsTruthy : JsVal → Bool
  | JsVal.vnum n => n ≠ 0
  | JsVal.vstr _ => true
  | JsVal.vundef => false

/-- JavaScript strict equality `v !== -1` is false only for the number `-1`:
a string is never strictly equal to a number. -/
def jsStrictEqNegOne : JsVal → Bool
  | JsVal.vnum n => n = -1
  | JsVal.vstr _ => false
  | JsVal.vundef => false

/-- Evaluation of `new BigNumber(v)` on the values that can reach it (the guard in
`resolveUpper` keeps `undefined` out; we return 0 there, unreachably). -/
def jsToBigNumber : JsVal → Int
  | JsVal.vnum n => n
  | JsVal.vstr n => n
  | JsVal.vundef => 0

/-- The maximum representable 64-bit key, `18446744073709551615 = 2^64 - 1`. -/
def maxKey : Int := 18446744073709551615

/-- Embedding of `chain.ts` line 501:
`upperNum && upperNum !== -1 ? new BigNumber(upperNum) : new BigNumber('18446744073709551615')`. -/
def resolveUpper (upperNum : JsVal) : Int :=
  if jsTruthy upperNum && !jsStrictEqNegOne upperNum then jsToBigNumber upperNum
  else maxKey

/-! ## RangePartitioner: `getTableAll` (`chain.ts` lines 494-554)

A backing table is a list of keys (`List Nat`), sorted strictly ascending in
the theorems that need it.  Rows are identified with their keys: the scan
only moves rows around, so nothing is lost by this identification. -/

/-- Modelled from the spec: `RemoteRangeReader` / `fetchRange` (§6), the
`_eos.getTableRows` call issued with `limit = -1` ("as many as the backend
will return in one page").  Both bounds are inclusive, as assumed by the
partitioner's `[l, mid-1]` / `[mid, u]` splitting; the page holds at most
`cap` rows (`maxPageSize`), and `more = true` exactly when rows of the range
remain beyond the returned page (§3: `truncated=false` implies the page is
the entire content of the range). -/
def pageQuery (table : List Nat) (cap : Nat) (l u : Nat) : List Nat × Bool :=
  let inRange := table.filter fun k => decide (l ≤ k) && decide (k ≤ u)
  if inRange.length ≤ cap then (inRange, false) else (inRange.take cap, true)

/-- Embedding of `chain.ts` line 528:
`_u.minus(_l).dividedBy(2).decimalPlaces(0).plus(_l)`.  `bignumber.js`
`decimalPlaces(0)` rounds half-up, so the midpoint is
`l + round_half_up((u-l)/2) = l + (u - l + 1) / 2` in integer arithmetic. -/
def midPoint (l u : Nat) : Nat := l + (u - l + 1) / 2

/-- Embedding of the recursive closure `Require` of `getTableAll`
(`chain.ts` lines 505-538), sequentialised: a sub-range with `l ≥ u` is
skipped; an untruncated page is appended; a truncated range recurses on
`[l, mid-1]` and `[mid, u]`.  `fuel` only bounds the recursion depth; every
caller below supplies enough of it. -/
def requireScanFuel (table : List Nat) (cap : Nat) : Nat → Nat → Nat → List Nat
  | 0, _, _ => []
  | fuel + 1, l, u =>
    if u ≤ l then []
    else
      let page := pageQuery table cap l u
      if page.2 then
        requireScanFuel table cap fuel l (midPoint l u - 1) ++
          requireScanFuel table cap fuel (midPoint l u) u
      else page.1

/-- Embedding of the hint path of `getTableAll` (`chain.ts` lines 542-546):
`[...hint, upper].reduce((_l, _m) => { Require(_l, _m); return _m; }, lower)`
issues one `Require` per consecutive boundary pair. -/
def segmentScan (table : List Nat) (cap : Nat) : Nat → List Nat → List Nat
  | _, [] => []
  | l, b :: bs =>
    requireScanFuel table cap (b - l + 1) l b ++ segmentScan table cap b bs

/-- Embedding of `getTableAll` (`chain.ts` lines 494-554) after the bounds
are resolved: with no hints one full-range `Require`, otherwise one
`Require` per consecutive pair of `lower :: hints ++ [upper]`. -/
def getTableAllScan (table : List Nat) (cap : Nat) (lower upper : Nat)
    (hints : List Nat) : List Nat :=
  if hints.length = 0 then requireScanFuel table cap (upper - lower + 1) lower upper
  else segmentScan table cap lower (hints ++ [upper])

/-- The predicate `scanOk` records that the bisection of `[l, u]` never skips a sub-range
that still contains a key: the run loses no rows exactly on the inputs where
this holds (used for the amended C1). -/
def scanOk (table : List Nat) (cap : Nat) : Nat → Nat → Nat → Bool
  | 0, _, _ => false
  | fuel + 1, l, u =>
    if u ≤ l then table.all fun k => !(decide (l ≤ k) && decide (k ≤ u))
    else
      let page := pageQuery table cap l u
      if page.2 then
        scanOk table cap fuel l (midPoint l u - 1) &&
          scanOk table cap fuel (midPoint l u) u
      else true

/-! ## InFlightSet bookkeeping of `getTableAll` (`chain.ts` lines 516-518
and 532-536)

Promises are modelled by identifiers (`Nat`); the pool is the array of
identifiers of in-flight sub-queries, in insertion order. -/

/-- Embedding of the success-path removal (`chain.ts` lines 517-518):
`const _myInd = pool.findIndex(v => v === _promise); pool.splice(_myInd, 1)`.
If the entry were absent, `findIndex` gives `-1` and `splice(-1, 1)` removes
the last element. -/
def poolRemoveOnSuccess (pool : List Nat) (self : Nat) : List Nat :=
  match pool.findIdx? (fun v => v = self) with
  | some i => pool.eraseIdx i
  | none => pool.dropLast

/-- Embedding of the error-path removal (`chain.ts` lines 533-534):
`const _myInd = pool.find(v => v === _promise); pool.splice(_myInd, 1)`.
`Array.find` returns the promise object itself (or `undefined`), not an
index; `Array.splice` coerces that non-numeric start argument to `0`, so the
first pool entry is removed regardless of which sub-query failed. -/
def poolRemoveOnError (pool : List Nat) (_self : Nat) : List Nat :=
  pool.eraseIdx 0

/-! ## CursorPaginator: `checkTableMore` (`chain.ts` lines 607-643)

Rows are identified with their primary-key value (`Int`); the backing table
is the ascending list of those values.  JavaScript truthiness of a numeric
key is `≠ 0`. -/

/-- Modelled from the spec: `RemoteRangeReader` / `fetchRange` (§6), the
`_eos.getTableRows` call of `checkTableMore` issued with an explicit row
`limit`.  Rows at or above `lower` (a negative `upper` is the repository's
"no upper bound" sentinel, the default `-1`) are returned up to
`min limit serverCap` rows — `serverCap` being the backend's own page bound
("truncates every `serverCap` rows"); a non-positive `limit` leaves only the
backend bound.  `more = true` exactly when rows of the range remain beyond
the returned page. -/
def fetchTableRows (tbl : List Int) (serverCap : Nat) (limit : Int)
    (lower upper : Int) : List Int × Bool :=
  let inRange := tbl.filter fun k => decide (lower ≤ k) && (decide (upper < 0) || decide (k ≤ upper))
  let n := if limit ≤ 0 then serverCap else min limit.toNat serverCap
  (inRange.take n, decide (n < inRange.length))

/-- Embedding of `checkTableMore` (`chain.ts` lines 607-643): if the page
reports `more` and the caller limit is not already exactly filled, read the
primary key of the first and last returned row; a falsy key (the field
absent, or present with value `0`) raises the cursor-key error; otherwise
recurse with `lower := to`, `limit := limit - rows.length + 1` and drop the
duplicated first row of the continuation.  An empty truncated page would
dereference `ret[0][primaryKey]` on `undefined` in the source, modelled as a
distinct error.  `fuel` bounds the recursion depth. -/
def checkTableMore (tbl : List Int) (serverCap : Nat) :
    Nat → Int → Int → Int → Except String (List Int)
  | 0, _, _, _ => Except.error "out of fuel"
  | fuel + 1, limit, lower, upper =>
    let page := fetchTableRows tbl serverCap limit lower upper
    let ret := page.1
    if page.2 && (decide (limit ≤ 0) || decide ((ret.length : Int) < limit)) then
      match ret.head?, ret.getLast? with
      | some mfrom, some mto =>
        if mfrom = 0 || mto = 0 then
          Except.error "check more error with primary key"
        else
          match checkTableMore tbl serverCap fuel (limit - ret.length + 1) mto upper with
          | Except.ok partResult => Except.ok (ret ++ partResult.drop 1)
          | Except.error e => Except.error e
      | _, _ => Except.error "TypeError: cannot read property of undefined"
    else Except.ok ret

/-! ## SequenceScanner: `getActions` (`chain.ts` lines 245-282)

Actions are identified with their `account_action_seq` value; the log is
the ascending list of those sequence numbers. -/

/-- Modelled from the spec: `RemoteSequenceReader` / `fetchSequenceWindow`
(§6), the `_eos.getActions({account_name, pos, offset})` call: a contiguous
maximal available window of the log restricted to sequence numbers in
`[pos, endPos]`, bounded by the backend's page size `cap` (§4.3: a short
page always means the rest of the window is not yet available past the
returned maximum). -/
def fetchSeqWindow (logSeq : List Nat) (cap : Nat) (pos endPos : Nat) : List Nat :=
  (logSeq.filter fun s => decide (pos ≤ s) && decide (s ≤ endPos)).take cap

/-- Embedding of the `while (true)` loop of `getActions` (`chain.ts` lines
250-279), the per-iteration timeout/retry being resolved by the
deterministic remote: `maxActionInd` is `pos - 1` for an empty page (as an
integer: the source works in JavaScript numbers), the loop breaks before
appending when `maxActionInd < pos`, appends otherwise, breaks after
appending when `maxActionInd ≥ endPos`, and else advances `pos` to
`maxActionInd + 1`. -/
def getActionsLoop (logSeq : List Nat) (cap : Nat) (endPos : Nat) :
    Nat → Nat → List Nat
  | 0, _ => []
  | fuel + 1, pos =>
    let acts := fetchSeqWindow logSeq cap pos endPos
    let maxActionInd : Int := match acts.getLast? with
      | none => (pos : Int) - 1
      | some a => (a : Int)
    if maxActionInd < (pos : Int) then []
    else if (endPos : Int) ≤ maxActionInd then acts
    else acts ++ getActionsLoop logSeq cap endPos fuel (maxActionInd.toNat + 1)

/-- Embedding of `getActions(account_name, startPos, offset)` (`chain.ts`
lines 245-282): scan the window `[startPos, startPos + offset]`.  The fuel
`offset + 2` dominates the loop's iteration count, since `pos` strictly
increases within the window. -/
def getActions (logSeq : List Nat) (cap : Nat) (startPos offset : Nat) : List Nat :=
  getActionsLoop logSeq cap (startPos + offset) (offset + 2) startPos

/-! ## The retry head of the `getActions` loop (`chain.ts` lines 250-263)

One fetch attempt either raises (a `timeoutPromise` timeout — modelled from
the spec, `timeoutPromise` lives in the excluded `utils/wait` — or any other
transport rejection) or yields a response; a response may lack the
`actions` field. -/

/-- Outcome of one awaited `timeoutPromise(fetchTimeout, this._eos.getActions(...))`:
an exception (timeout or other transport error), or a response whose
`actions` field is `none` (absent) or `some acts`. -/
inductive FetchOutcome : Type
  | exc (isTimeout : Bool)
  | resp (actions : Option (List Nat))
deriving DecidableEq

/-- Embedding of `chain.ts` lines 250-263: the `try/catch` around the
awaited fetch `continue`s (retries) on any exception, while a response
without an `actions` field raises `getActions failed` to the caller.
`oracle k` is the outcome of attempt `k`; `none` means the given `fuel`
ran out with the loop still retrying. -/
def fetchWithRetry (oracle : Nat → FetchOutcome) :
    Nat → Nat → Option (Except String (List Nat))
  | 0, _ => none
  | fuel + 1, k =>
    match oracle k with
    | FetchOutcome.exc _ => fetchWithRetry oracle fuel (k + 1)
    | FetchOutcome.resp none =>
      some (Except.error "getActions failed: cannot find actions")
    | FetchOutcome.resp (some acts) => some (Except.ok acts)

/-! ## BatchDispatcher: `getAllActionsBatch` (`chain.ts` lines 293-345)

`req pos` is the (eventually successful) result of the inner retry wrapper
around `getActions(account_name, pos, offset)` for the window starting at
`pos`; the dispatcher pairs each page with its `startPos`.  Rows are opaque
(`Nat`). -/

/-- Embedding of the callback of the delivery `reduce` (`chain.ts` lines
328-333): `cbReceive(acts)` fires while the accumulator `full` is still
`true` (the delivered pages are collected in the second component); the
accumulator then becomes `full && acts.length >= count`. -/
def deliverStep (count : Nat) (st : Bool × List (Nat × List Nat))
    (pr : Nat × List Nat) : Bool × List (Nat × List Nat) :=
  (st.1 && decide (count ≤ pr.2.length), if st.1 then st.2 ++ [pr] else st.2)

/-- Embedding of the delivery `reduce` (`chain.ts` lines 326-333) over the
non-empty results of one batch, started with accumulator `true`.  Returns
`(allFull, delivered pages)`. -/
def deliverFold (count : Nat) (ne : List (Nat × List Nat)) :
    Bool × List (Nat × List Nat) :=
  ne.foldl (deliverStep count) (true, [])

/-- Embedding of the dispatch loop of `getAllActionsBatch` (`chain.ts` lines
313-341): iteration `i` pushes the window start `startPos + i * count`; when
`i % concurrent = 0` the accumulated ranges are dispatched, empty results
are filtered out, the scan breaks if all were empty, the delivery `reduce`
runs, and the scan breaks unless every non-empty page was full.  The value
is the list of `(startPos, rows)` pages delivered to `cbReceive`, in
delivery order. -/
def batchLoop (req : Nat → List Nat) (startPos count c : Nat) :
    Nat → Nat → List Nat → List (Nat × List Nat)
  | 0, _, _ => []
  | fuel + 1, i, ranges =>
    let ranges2 := ranges ++ [startPos + i * count]
    if i % c = 0 then
      let results := ranges2.map fun p => (p, req p)
      let ne := results.filter fun pr => decide (0 < pr.2.length)
      if ne.length = 0 then []
      else
        let fd := deliverFold count ne
        if fd.1 then fd.2 ++ batchLoop req startPos count c fuel (i + 1) []
        else fd.2
    else batchLoop req startPos count c fuel (i + 1) ranges2

/-- Embedding of `getAllActionsBatch(account_name, cbReceive, startPos,
count, concurrent)` (`chain.ts` lines 293-345): the full delivery sequence,
starting at iteration `i = 0` with an empty pending-ranges array. -/
def getAllActionsBatch (req : Nat → List Nat) (startPos count c fuel : Nat) :
    List (Nat × List Nat) :=
  batchLoop req startPos count c fuel 0 []

/-! ## Auxiliary definitions used by the theorems -/

/-- The prefix of a list up to and including its first element failing `p`
(everything if all satisfy `p`): the delivery pattern of one batch of
`getAllActionsBatch` over its non-empty pages. -/
def takeThru (p : α → Bool) : List α → List α
  | [] => []
  | x :: xs => if p x then x :: takeThru p xs else [x]

/-- A concrete remote for `getAllActionsBatch` with `count = 2`: the windows
at 0 and 2 are full, the window at 4 is empty, the window at 6 is short but
non-empty — the shape "data past a gap" that the dispatcher can receive. -/
def reqGap : Nat → List Nat := fun p =>
  if p = 0 then [0, 1] else if p = 2 then [2, 3] else if p = 6 then [6] else []

/-- A concrete fetch-outcome sequence: the first attempt fails with a
non-timeout transport error, the second attempt succeeds. -/
def oracleTransportErr : Nat → FetchOutcome := fun k =>
  if k = 0 then FetchOutcome.exc false else FetchOutcome.resp (some [1])

/-- A concrete fetch-outcome sequence: a timeout, then a non-timeout
transport error, then a response with no `actions` field. -/
def oracleAppErr : Nat → FetchOutcome := fun k =>
  if k = 0 then FetchOutcome.exc true
  else if k = 1 then FetchOutcome.exc false
  else FetchOutcome.resp none

/-- What `getActions` does with a delivered response: raise on a missing
`actions` field, succeed otherwise. -/
def respToResult : Option (List Nat) → Except String (List Nat)
  | none => Except.error "getActions failed: cannot find actions"
  | some acts => Except.ok acts

/-! # Theorems -/

/-- C1, counterexample.  The claim quantifies over every `maxPageSize`; with
`maxPageSize = 1`, a backing table with keys `{0, 1}` (all inside the range
`[0, 1]`) and the scan over lower 0, upper 1: the first page truncates,
bisection yields the midpoint 1, and both halves `[0, 0]` and `[1, 1]` are
skipped by the `l ≥ u` emptiness check, so the scan returns the empty set
although both keys were present at call time. -/
theorem c1_range_scan_cex :
    getTableAllScan [0, 1] 1 0 1 [] = [] ∧ (0 : Nat) ∈ [0, 1] ∧ (1 : Nat) ∈ [0, 1] := by
  decide

/-- C3, code bug, evaluated at the failing input.  With the InFlightSet
`pool = [7, 9]` and sub-query `9` erroring, the catch handler of
`getTableAll` removes pool entry `7` — the still-pending other query — and
leaves the failed query `9` in the set, because `Array.find` hands the
promise object (not an index) to `splice`, which coerces it to `0`.  The
success handler (`findIndex`) removes the right entry, `9`. -/
theorem c3_pool_error_removal :
    poolRemoveOnError [7, 9] 9 = [9] ∧ poolRemoveOnSuccess [7, 9] 9 = [7] := by
  decide

/-- C4, confirmed on the claim's concrete scenario.  Against a table of 20
rows with primary keys 1..20 whose backend truncates every 5 rows,
`checkTableMore` with `limit = 7` recurses once with lower bound 5 (the last
returned key) and `limit = 7 - 5 + 1 = 3`, drops the duplicated first row of
the continuation, and returns exactly the 7 rows 1..7 with no duplicate
primary keys. -/
theorem c4_cursor_paginator_concrete :
    checkTableMore ((List.range 20).map fun k => (k : Int) + 1) 5 6 7 0 (-1) =
      Except.ok [1, 2, 3, 4, 5, 6, 7] ∧
    ([1, 2, 3, 4, 5, 6, 7] : List Int).Nodup := by
  constructor
  · rfl
  · decide

/-- C6, counterexample.  For the truncated range `[0, 3]`, the claim's
midpoint `l + floor((u - l) / 2)` is `1`, but the source's
`decimalPlaces(0)` rounds `1.5` half-up, giving midpoint `2`. -/
theorem c6_bisection_midpoint_cex : midPoint 0 3 ≠ 0 + (3 - 0) / 2 := by
  decide

/-- C7, counterexample.  Backing table keys `{0, 1, 2, 3}`, page cap 2,
range `[0, 3]`: the scan with no hints returns key 0, the scan with the
valid ascending hint sequence `[2]` does not (the hinted sub-range `[0, 2]`
truncates and its bisection drops key 0 into a skipped `[0, 0]` half), so
the two final sets differ. -/
theorem c7_hints_cex :
    (0 : Nat) ∈ getTableAllScan [0, 1, 2, 3] 2 0 3 [] ∧
    (0 : Nat) ∉ getTableAllScan [0, 1, 2, 3] 2 0 3 [2] := by
  decide

/-- C8, counterexample.  A first attempt that fails with a non-timeout
transport error is also retried — the `catch` around the awaited fetch swallows
every exception — so retrying is not reserved to timeouts as the claim
states: the scan continues and returns the second attempt's rows instead of
raising the transport error. -/
theorem c8_retry_cex :
    fetchWithRetry oracleTransportErr 2 0 = some (Except.ok [1]) := by
  rfl

/-- C9, counterexample.  `upperNum` typed `string | number` also admits the
numeric string `'-1'`; it is truthy and not strictly equal to the number
`-1`, so the guard `upperNum && upperNum !== -1` passes and
`new BigNumber('-1')` — the literal value `-1` — is used as the upper
bound. -/
theorem c9_upper_sentinel_cex : resolveUpper (JsVal.vstr (-1)) = -1 := by
  decide

/-- C9, amended: the sentinel passed as the number `-1`, as an omitted
argument (`undefined`), or as the falsy number `0` maps to the maximum
representable key `2^64 - 1`; but the sentinel passed as the numeric string
`'-1'` escapes the strict-equality guard and is used literally as the upper
bound `-1`. -/
theorem c9_upper_sentinel_amended :
    resolveUpper (JsVal.vnum (-1)) = maxKey ∧
    resolveUpper JsVal.vundef = maxKey ∧
    resolveUpper (JsVal.vnum 0) = maxKey ∧
    maxKey = 18446744073709551615 ∧
    resolveUpper (JsVal.vstr (-1)) = -1 := by
  decide

/-- C2, counterexample.  With `pageSize = 2` and `concurrent = 3`, the
second dispatched batch of `getAllActionsBatch` under the remote `reqGap`
holds a full page at `startPos = 2`, a short (empty) page at `startPos = 4`,
and a non-empty page at `startPos = 6`: the page at 6 — positioned after the
short page at 4, for which the remote returned rows — is still delivered to
`onPage`, because empty results are filtered out before the delivery walk. -/
theorem c2_batch_delivery_cex :
    getAllActionsBatch reqGap 0 2 3 4 = [(0, [0, 1]), (2, [2, 3]), (6, [6])] ∧
    (reqGap 4).length < 2 ∧
    (6, [6]) ∈ getAllActionsBatch reqGap 0 2 3 4 := by
  refine ⟨rfl, by decide, ?_⟩
  rw [show getAllActionsBatch reqGap 0 2 3 4 =
        [(0, [0, 1]), (2, [2, 3]), (6, [6])] from rfl]
  decide

/-- C10, confirmed.  Whenever the first page of `checkTableMore` reports
truncation with the caller limit not exactly filled, and the primary-key
field of the first or last returned row holds the falsy value `0`, the
cursor-key error is thrown instead of continuing the scan: `!from || !to`
tests truthiness of the value, so presence of the field is not sufficient. -/
theorem c10_falsy_cursor_key (tbl : List Int) (serverCap fuel : Nat)
    (limit lower upper : Int) (rows : List Int) (f t : Int)
    (hfetch : fetchTableRows tbl serverCap limit lower upper = (rows, true))
    (hcont : limit ≤ 0 ∨ (rows.length : Int) < limit)
    (hhead : rows.head? = some f) (hlast : rows.getLast? = some t)
    (hfalsy : f = 0 ∨ t = 0) :
    checkTableMore tbl serverCap (fuel + 1) limit lower upper =
      Except.error "check more error with primary key" := by
  have hcond : (decide (limit ≤ 0) || decide ((rows.length : Int) < limit)) = true := by
    rcases hcont with h | h <;> simp [h]
  have hfb : (f = 0 || t = 0) = true := by
    rcases hfalsy with h | h <;> simp [h]
  simp only [checkTableMore, hfetch, hcond, Bool.true_and, Bool.and_true, if_true,
    hhead, hlast, hfb, if_pos]

/-- C10, witness: a table with primary keys 0..19, backend cap 5,
`limit = 7`: the first page is `[0, 1, 2, 3, 4]`, truncated with
`5 < 7`, its first key is the falsy `0`, and `checkTableMore` throws. -/
theorem c10_falsy_cursor_key_witness :
    checkTableMore ((List.range 20).map fun k => (k : Int)) 5 6 7 0 (-1) =
      Except.error "check more error with primary key" :=
  c10_falsy_cursor_key ((List.range 20).map fun k => (k : Int)) 5 5 7 0 (-1)
    [0, 1, 2, 3, 4] 0 4 (by rfl) (by decide) (by decide) (by decide) (by decide)

/-- C8, amended: the `try/catch` of the `getActions` fetch loop retries
indefinitely on every exception thrown by the awaited fetch — timeouts and
non-timeout transport errors alike — and never escalates them; a response
without an `actions` field is not retried but raised to the caller. -/
theorem c8_retry_amended (oracle : Nat → FetchOutcome) (n k : Nat)
    (r : Option (List Nat))
    (hexc : ∀ j, j < n → ∃ b, oracle (k + j) = FetchOutcome.exc b)
    (hresp : oracle (k + n) = FetchOutcome.resp r) :
    fetchWithRetry oracle (n + 1) k = some (respToResult r) := by
  induction n generalizing k with
  | zero =>
    rw [show k + 0 = k from rfl] at hresp
    show fetchWithRetry oracle (0 + 1) k = _
    rw [show (0 + 1 : Nat) = 1 from rfl]
    simp only [fetchWithRetry, hresp]
    cases r <;> rfl
  | succ n ih =>
    obtain ⟨b, hb⟩ := hexc 0 (Nat.succ_pos n)
    rw [show k + 0 = k from rfl] at hb
    have hstep : fetchWithRetry oracle (n + 1 + 1) k =
        fetchWithRetry oracle (n + 1) (k + 1) := by
      show fetchWithRetry oracle (n + 1 + 1) k = _
      rw [show fetchWithRetry oracle (n + 1 + 1) k =
            match oracle k with
            | FetchOutcome.exc _ => fetchWithRetry oracle (n + 1) (k + 1)
            | FetchOutcome.resp none =>
              some (Except.error "getActions failed: cannot find actions")
            | FetchOutcome.resp (some acts) => some (Except.ok acts) from rfl]
      rw [hb]
    rw [hstep]
    exact ih (k + 1)
      (fun j hj => by
        obtain ⟨b', hb'⟩ := hexc (j + 1) (by omega)
        exact ⟨b', by rw [show k + 1 + j = k + (j + 1) by omega]; exact hb'⟩)
      (by rw [show k + 1 + n = k + (n + 1) by omega]; exact hresp)

/-- C8, witness: under `oracleAppErr` (a timeout, then a transport error,
then a response with no `actions` field) the loop retries through both
exceptions and then raises the application error. -/
theorem c8_retry_amended_witness :
    fetchWithRetry oracleAppErr 3 0 = some (respToResult none) :=
  c8_retry_amended oracleAppErr 2 0 none
    (fun j hj => by
      interval_cases j
      · exact ⟨true, rfl⟩
      · exact ⟨false, rfl⟩)
    rfl

/-- C6, amended: when a sub-range query over `[l, u]` reports truncation,
the range is bisected at `mid = l + round((u - l) / 2)` rounded half-up
(equivalently `l + (u - l + 1) / 2`, i.e. `l + ceil((u - l) / 2)`), and the
two recursive sub-queries are issued over `[l, mid - 1]` and `[mid, u]`. -/
theorem c6_bisection_midpoint_amended (table : List Nat) (cap fuel l u : Nat)
    (hlu : l < u) (htrunc : (pageQuery table cap l u).2 = true) :
    requireScanFuel table cap (fuel + 1) l u =
      requireScanFuel table cap fuel l (midPoint l u - 1) ++
        requireScanFuel table cap fuel (midPoint l u) u ∧
    midPoint l u = l + (u - l + 1) / 2 := by
  refine ⟨?_, rfl⟩
  simp only [requireScanFuel, if_neg (Nat.not_le.mpr hlu), htrunc, if_pos]

/-- C6, witness: the truncated range `[0, 3]` over the table `{0, 1, 2, 3}`
with page cap 2 is bisected at `midPoint 0 3 = 0 + (3 - 0 + 1) / 2 = 2`. -/
theorem c6_bisection_midpoint_amended_witness :
    requireScanFuel [0, 1, 2, 3] 2 4 0 3 =
      requireScanFuel [0, 1, 2, 3] 2 3 0 (midPoint 0 3 - 1) ++
        requireScanFuel [0, 1, 2, 3] 2 3 (midPoint 0 3) 3 ∧
    midPoint 0 3 = 0 + (3 - 0 + 1) / 2 :=
  c6_bisection_midpoint_amended [0, 1, 2, 3] 2 3 0 3 (by decide) (by decide)

/-! ## Sorted-list lemmas for the SequenceScanner -/

/-- In a strictly ascending list, what lies beyond the first `cap` elements
is exactly what lies strictly above the last element of those `cap`. -/
theorem sorted_drop_eq_filter_gtLast :
    ∀ (l : List Nat) (cap : Nat), l.Pairwise (· < ·) → 1 ≤ cap →
      ∀ m, (l.take cap).getLast? = some m →
        l.drop cap = l.filter fun s => decide (m < s) := by
  intro l
  induction l with
  | nil => intro cap _ _ m hm; simp at hm
  | cons a t ih =>
    intro cap hp hcap m hm
    obtain ⟨c, rfl⟩ : ∃ c, cap = c + 1 := ⟨cap - 1, by omega⟩
    rw [List.take_succ_cons] at hm
    have hpt : t.Pairwise (· < ·) := (List.pairwise_cons.mp hp).2
    have hpa : ∀ b ∈ t, a < b := (List.pairwise_cons.mp hp).1
    by_cases hc : t.take c = []
    · rw [hc] at hm
      simp only [List.getLast?_singleton, Option.some.injEq] at hm
      subst hm
      rw [List.drop_succ_cons]
      have hfa : (a :: t).filter (fun s => decide (a < s)) =
          t.filter fun s => decide (a < s) := by
        simp
      rw [hfa]
      rcases List.take_eq_nil_iff.mp hc with h0 | h0
      · subst h0
        rw [List.drop_zero, List.filter_eq_self.mpr]
        intro b hb
        simpa using hpa b hb
      · subst h0
        simp
    · obtain ⟨b, bs, hbs⟩ : ∃ b bs, t.take c = b :: bs := by
        cases htc : t.take c with
        | nil => exact absurd htc hc
        | cons b bs => exact ⟨b, bs, rfl⟩
      rw [hbs, List.getLast?_cons_cons, ← hbs] at hm
      have hc1 : 1 ≤ c := by
        rcases Nat.eq_zero_or_pos c with h | h
        · subst h; simp at hbs
        · exact h
      have hmem : m ∈ t.take c := List.mem_of_mem_getLast? (by rw [hm]; rfl)
      have hmt : m ∈ t := List.mem_of_mem_take hmem
      have ham : a < m := hpa m hmt
      rw [List.drop_succ_cons, ih c hpt hc1 m hm]
      have : decide (m < a) = false := by
        simp only [decide_eq_false_iff_not]
        omega
      simp [List.filter_cons, this]

/-- Companion to `sorted_drop_eq_filter_gtLast`: the whole list is the taken
page followed by the elements strictly above the page's last element. -/
theorem sorted_eq_take_append_filter (l : List Nat) (cap : Nat)
    (hp : l.Pairwise (· < ·)) (hcap : 1 ≤ cap) (m : Nat)
    (hm : (l.take cap).getLast? = some m) :
    l = l.take cap ++ l.filter fun s => decide (m < s) := by
  conv_lhs => rw [← List.take_append_drop cap l]
  rw [sorted_drop_eq_filter_gtLast l cap hp hcap m hm]

/-- Unfolding equation of one `getActions` loop iteration. -/
theorem getActionsLoop_succ (logSeq : List Nat) (cap endPos fuel pos : Nat) :
    getActionsLoop logSeq cap endPos (fuel + 1) pos =
      let acts := fetchSeqWindow logSeq cap pos endPos
      let maxActionInd : Int := match acts.getLast? with
        | none => (pos : Int) - 1
        | some a => (a : Int)
      if maxActionInd < (pos : Int) then []
      else if (endPos : Int) ≤ maxActionInd then acts
      else acts ++ getActionsLoop logSeq cap endPos fuel (maxActionInd.toNat + 1) :=
  rfl

/-- The `getActions` loop with enough fuel returns exactly the log entries
of the window `[pos, endPos]`, in log order. -/
theorem getActionsLoop_eq_filter (logSeq : List Nat) (cap endPos : Nat)
    (hp : logSeq.Pairwise (· < ·)) (hcap : 1 ≤ cap) :
    ∀ (fuel pos : Nat), endPos + 2 ≤ fuel + pos →
      getActionsLoop logSeq cap endPos fuel pos =
        logSeq.filter fun s => decide (pos ≤ s) && decide (s ≤ endPos) := by
  intro fuel
  induction fuel with
  | zero =>
    intro pos hfuel
    rw [show getActionsLoop logSeq cap endPos 0 pos = [] from rfl]
    symm
    rw [List.filter_eq_nil_iff]
    intro s _hs
    simp only [Bool.and_eq_true, decide_eq_true_eq, not_and]
    intro h1 h2
    omega
  | succ fuel ih =>
    intro pos hfuel
    have hFp : (logSeq.filter fun s => decide (pos ≤ s) && decide (s ≤ endPos)).Pairwise
        (· < ·) := List.Pairwise.sublist (List.filter_sublist logSeq) hp
    rw [getActionsLoop_succ]
    cases hl : ((logSeq.filter fun s => decide (pos ≤ s) && decide (s ≤ endPos)).take
        cap).getLast? with
    | none =>
      have hFnil : logSeq.filter (fun s => decide (pos ≤ s) && decide (s ≤ endPos)) = [] := by
        rcases List.take_eq_nil_iff.mp (List.getLast?_eq_none_iff.mp hl) with h | h
        · omega
        · exact h
      simp only [fetchSeqWindow, hl]
      rw [if_pos (by omega : (pos : Int) - 1 < (pos : Int))]
      exact hFnil.symm
    | some m =>
      have hmem : m ∈ (logSeq.filter fun s => decide (pos ≤ s) && decide (s ≤ endPos)).take
          cap := List.mem_of_mem_getLast? (by rw [hl]; rfl)
      have hmF : m ∈ logSeq.filter fun s => decide (pos ≤ s) && decide (s ≤ endPos) :=
        List.mem_of_mem_take hmem
      have hmprops : pos ≤ m ∧ m ≤ endPos := by
        have := List.mem_filter.mp hmF
        simpa using this.2
      simp only [fetchSeqWindow, hl]
      rw [if_neg (by omega : ¬((m : Int) < (pos : Int)))]
      by_cases hend : endPos ≤ m
      · rw [if_pos (by exact_mod_cast hend : (endPos : Int) ≤ (m : Int))]
        have hdrop := sorted_drop_eq_filter_gtLast
          (logSeq.filter fun s => decide (pos ≤ s) && decide (s ≤ endPos)) cap hFp hcap m hl
        have hnil : (logSeq.filter fun s => decide (pos ≤ s) && decide (s ≤ endPos)).filter
            (fun s => decide (m < s)) = [] := by
          rw [List.filter_eq_nil_iff]
          intro s hs
          have := List.mem_filter.mp hs
          simp only [Bool.and_eq_true, decide_eq_true_eq] at this
          simp only [decide_eq_true_eq]
          omega
        conv_rhs => rw [← List.take_append_drop cap
          (logSeq.filter fun s => decide (pos ≤ s) && decide (s ≤ endPos))]
        rw [hdrop, hnil, List.append_nil]
      · rw [if_neg (by exact_mod_cast hend : ¬((endPos : Int) ≤ (m : Int)))]
        rw [show ((m : Int)).toNat = m from Int.toNat_natCast m]
        rw [ih (m + 1) (by omega)]
        have hconv : (logSeq.filter fun s => decide (m + 1 ≤ s) && decide (s ≤ endPos)) =
            (logSeq.filter fun s => decide (pos ≤ s) && decide (s ≤ endPos)).filter
              fun s => decide (m < s) := by
          rw [List.filter_filter]
          apply List.filter_congr
          intro s _hs
          rw [show (decide (m + 1 ≤ s) && decide (s ≤ endPos)) =
                decide ((m + 1 ≤ s) ∧ (s ≤ endPos)) by simp,
              show (decide (m < s) && (decide (pos ≤ s) && decide (s ≤ endPos))) =
                decide ((m < s) ∧ ((pos ≤ s) ∧ (s ≤ endPos))) by simp]
          rw [decide_eq_decide]
          constructor
          · intro h; exact ⟨by omega, by omega, h.2⟩
          · intro h; exact ⟨by omega, h.2.2⟩
        rw [hconv, ← sorted_drop_eq_filter_gtLast
          (logSeq.filter fun s => decide (pos ≤ s) && decide (s ≤ endPos)) cap hFp hcap m hl,
          List.take_append_drop]

/-- C5, confirmed.  For every `startPos` and `count` (the source's `offset`:
the window is `[startPos, startPos + offset]`), `getActions` against the
modelled remote returns exactly the ordered log entries with sequence
numbers in that window: it appends each page, advances the cursor past the
page's last sequence number, stops once that number reaches `endPos`, and
stops without appending on an empty page or one whose maximum sequence
number is below the cursor. -/
theorem c5_sequence_scanner (logSeq : List Nat) (cap startPos offset : Nat)
    (hsorted : logSeq.Pairwise (· < ·)) (hcap : 1 ≤ cap) :
    getActions logSeq cap startPos offset =
      logSeq.filter fun s => decide (startPos ≤ s) && decide (s ≤ startPos + offset) :=
  getActionsLoop_eq_filter logSeq cap (startPos + offset) hsorted hcap (offset + 2)
    startPos (by omega)

/-- C5, witness: the log `[1, 3, 5, 8]` scanned with page cap 2 over the
window `[2, 7]` yields `[3, 5]`. -/
theorem c5_sequence_scanner_witness :
    getActions [1, 3, 5, 8] 2 2 5 =
      List.filter (fun s => decide (2 ≤ s) && decide (s ≤ 2 + 5)) [1, 3, 5, 8] :=
  c5_sequence_scanner [1, 3, 5, 8] 2 2 5 (by decide) (by decide)

/-! ## Sorted-list lemmas for the RangePartitioner -/

/-- Splitting an ascending list at a pivot and re-concatenating restores it. -/
theorem sorted_filter_lt_append_filter_ge (m : Nat) :
    ∀ (S : List Nat), S.Pairwise (· < ·) →
      (S.filter fun k => decide (k < m)) ++ (S.filter fun k => decide (m ≤ k)) = S := by
  intro S
  induction S with
  | nil => intro _; rfl
  | cons a t ih =>
    intro hp
    have hpa : ∀ b ∈ t, a < b := (List.pairwise_cons.mp hp).1
    have hpt : t.Pairwise (· < ·) := (List.pairwise_cons.mp hp).2
    by_cases ham : a < m
    · have h2 : decide (m ≤ a) = false := by simp only [decide_eq_false_iff_not]; omega
      simp only [List.filter_cons, decide_eq_true_eq, if_pos ham, h2, Bool.false_eq_true,
        if_false, List.cons_append]
      rw [ih hpt]
    · have hta : t.filter (fun k => decide (k < m)) = [] := by
        rw [List.filter_eq_nil_iff]
        intro b hb
        have := hpa b hb
        simp only [decide_eq_true_eq]
        omega
      have htb : t.filter (fun k => decide (m ≤ k)) = t := by
        rw [List.filter_eq_self]
        intro b hb
        have := hpa b hb
        simp only [decide_eq_true_eq]
        omega
      have h2 : decide (m ≤ a) = true := by simp only [decide_eq_true_eq]; omega
      simp only [List.filter_cons, decide_eq_true_eq, if_neg ham, h2, if_true, hta, htb,
        List.nil_append]

/-- When `scanOk` holds — no bisection step ever skips a sub-range that
still contains a key — the `Require` recursion of `getTableAll` returns
exactly the table's keys within `[l, u]`, in ascending order. -/
theorem requireScanFuel_eq_filter (table : List Nat) (cap : Nat)
    (hsorted : table.Pairwise (· < ·)) :
    ∀ (fuel l u : Nat), scanOk table cap fuel l u = true →
      requireScanFuel table cap fuel l u =
        table.filter fun k => decide (l ≤ k) && decide (k ≤ u) := by
  intro fuel
  induction fuel with
  | zero => intro l u hok; simp [scanOk] at hok
  | succ fuel ih =>
    intro l u hok
    by_cases hul : u ≤ l
    · rw [show requireScanFuel table cap (fuel + 1) l u = [] by
        simp [requireScanFuel, hul]]
      symm
      rw [List.filter_eq_nil_iff]
      intro k hk
      simp only [scanOk, if_pos hul] at hok
      have h2 := (List.all_eq_true.mp hok) k hk
      simp only [Bool.not_eq_true', Bool.and_eq_false_iff, decide_eq_false_iff_not] at h2
      simp only [Bool.and_eq_true, decide_eq_true_eq, not_and]
      intro h3
      rcases h2 with h | h <;> omega
    · simp only [scanOk, if_neg hul] at hok
      simp only [requireScanFuel, if_neg hul]
      by_cases htr : (pageQuery table cap l u).2 = true
      · rw [if_pos htr]
        simp only [htr, if_true, Bool.and_eq_true] at hok
        have hmid : l + 1 ≤ midPoint l u ∧ midPoint l u ≤ u := by
          simp only [midPoint]
          omega
        rw [ih l (midPoint l u - 1) hok.1, ih (midPoint l u) u hok.2]
        have e1 : (table.filter fun k => decide (l ≤ k) && decide (k ≤ midPoint l u - 1)) =
            (table.filter fun k => decide (l ≤ k) && decide (k ≤ u)).filter
              fun k => decide (k < midPoint l u) := by
          rw [List.filter_filter]
          apply List.filter_congr
          intro k _
          rw [show (decide (l ≤ k) && decide (k ≤ midPoint l u - 1)) =
                decide ((l ≤ k) ∧ (k ≤ midPoint l u - 1)) by simp,
              show (decide (k < midPoint l u) && (decide (l ≤ k) && decide (k ≤ u))) =
                decide ((k < midPoint l u) ∧ ((l ≤ k) ∧ (k ≤ u))) by simp]
          rw [decide_eq_decide]
          omega
        have e2 : (table.filter fun k => decide (midPoint l u ≤ k) && decide (k ≤ u)) =
            (table.filter fun k => decide (l ≤ k) && decide (k ≤ u)).filter
              fun k => decide (midPoint l u ≤ k) := by
          rw [List.filter_filter]
          apply List.filter_congr
          intro k _
          rw [show (decide (midPoint l u ≤ k) && decide (k ≤ u)) =
                decide ((midPoint l u ≤ k) ∧ (k ≤ u)) by simp,
              show (decide (midPoint l u ≤ k) && (decide (l ≤ k) && decide (k ≤ u))) =
                decide ((midPoint l u ≤ k) ∧ ((l ≤ k) ∧ (k ≤ u))) by simp]
          rw [decide_eq_decide]
          omega
        rw [e1, e2, sorted_filter_lt_append_filter_ge (midPoint l u) _
          (List.Pairwise.sublist (List.filter_sublist table) hsorted)]
      · rw [if_neg htr]
        by_cases hlen :
            (table.filter fun k => decide (l ≤ k) && decide (k ≤ u)).length ≤ cap
        · simp only [pageQuery, if_pos hlen]
        · exfalso
          apply htr
          simp only [pageQuery, if_neg hlen]

/-- C1, amended: for a backing table sorted by key, `getTableAll` returns
exactly the rows whose keys lie in `[l, u]`, each exactly once (in ascending
order), provided the bisection never narrows a truncated range to a
sub-range `[a, b]` with `a ≥ b` that still contains a key (`scanOk`) — in
particular this holds for the claim's concrete scenario (keys `{0,...,9}`,
page cap 4, scan over `[0, 10]`, see the witness).  Without that proviso the
claim fails for general `maxPageSize` (see the counterexample: cap 1, keys
`{0, 1}`). -/
theorem c1_range_scan_amended (table : List Nat) (cap l u : Nat)
    (hsorted : table.Pairwise (· < ·))
    (hok : scanOk table cap (u - l + 1) l u = true) :
    getTableAllScan table cap l u [] =
      table.filter fun k => decide (l ≤ k) && decide (k ≤ u) :=
  requireScanFuel_eq_filter table cap hsorted (u - l + 1) l u hok

/-- C1, witness: the claim's concrete scenario.  Backing table keys
`{0,...,9}`, page cap 4, scan over lower 0 and upper 10: all 10 keys are
returned, each exactly once. -/
theorem c1_range_scan_amended_witness :
    getTableAllScan (List.range 10) 4 0 10 [] =
      List.filter (fun k => decide (0 ≤ k) && decide (k ≤ 10)) (List.range 10) :=
  c1_range_scan_amended (List.range 10) 4 0 10 (by decide) (by decide)

/-! ## Lemmas for the BatchDispatcher -/

/-- Unfolding of `takeThru` on a kept head. -/
theorem takeThru_cons_pos (p : α → Bool) (x : α) (xs : List α) (h : p x = true) :
    takeThru p (x :: xs) = x :: takeThru p xs := by
  simp only [takeThru, if_pos h]

/-- Unfolding of `takeThru` on a failing head. -/
theorem takeThru_cons_neg (p : α → Bool) (x : α) (xs : List α) (h : p x = false) :
    takeThru p (x :: xs) = [x] := by
  simp [takeThru, h]

/-- Applying `takeThru` yields a sublist of the input. -/
theorem takeThru_sublist (p : α → Bool) :
    ∀ l : List α, List.Sublist (takeThru p l) l := by
  intro l
  induction l with
  | nil => exact List.Sublist.refl []
  | cons x xs ih =>
    by_cases h : p x = true
    · rw [takeThru_cons_pos p x xs h]
      exact List.Sublist.cons₂ x ih
    · rw [Bool.not_eq_true] at h
      rw [takeThru_cons_neg p x xs h]
      exact List.Sublist.cons₂ x (List.nil_sublist xs)

/-- Once the delivery accumulator is `false`, nothing more is delivered. -/
theorem deliverStep_foldl_false (count : Nat) :
    ∀ (ne : List (Nat × List Nat)) (acc : List (Nat × List Nat)),
      ne.foldl (deliverStep count) (false, acc) = (false, acc) := by
  intro ne
  induction ne with
  | nil => intro acc; rfl
  | cons pr ne ih =>
    intro acc
    rw [List.foldl_cons, show deliverStep count (false, acc) pr = (false, acc) by
      simp [deliverStep]]
    exact ih acc

/-- While the delivery accumulator is `true`, the `reduce` delivers the
pages up to and including the first short one, and ends `true` exactly when
every page was full. -/
theorem deliverStep_foldl_true (count : Nat) :
    ∀ (ne : List (Nat × List Nat)) (acc : List (Nat × List Nat)),
      ne.foldl (deliverStep count) (true, acc) =
        (ne.all fun pr => decide (count ≤ pr.2.length),
         acc ++ takeThru (fun pr => decide (count ≤ pr.2.length)) ne) := by
  intro ne
  induction ne with
  | nil => intro acc; simp [takeThru]
  | cons pr ne ih =>
    intro acc
    rw [List.foldl_cons, show deliverStep count (true, acc) pr =
      (decide (count ≤ pr.2.length), acc ++ [pr]) by simp [deliverStep]]
    by_cases hp : decide (count ≤ pr.2.length) = true
    · rw [hp, ih (acc ++ [pr]),
        takeThru_cons_pos (fun pr => decide (count ≤ pr.2.length)) pr ne hp]
      simp only [List.all_cons, hp, Bool.true_and, List.append_assoc,
        List.singleton_append]
    · rw [Bool.not_eq_true] at hp
      rw [hp, deliverStep_foldl_false count ne (acc ++ [pr]),
        takeThru_cons_neg (fun pr => decide (count ≤ pr.2.length)) pr ne hp]
      simp only [List.all_cons, hp, Bool.false_and]

/-- Characterization of one batch's delivery `reduce`. -/
theorem deliverFold_spec (count : Nat) (ne : List (Nat × List Nat)) :
    deliverFold count ne =
      (ne.all fun pr => decide (count ≤ pr.2.length),
       takeThru (fun pr => decide (count ≤ pr.2.length)) ne) := by
  rw [deliverFold, deliverStep_foldl_true]
  simp

/-- Unfolding equation of one `getAllActionsBatch` loop iteration. -/
theorem batchLoop_succ (req : Nat → List Nat) (startPos count c fuel i : Nat)
    (ranges : List Nat) :
    batchLoop req startPos count c (fuel + 1) i ranges =
      (let ranges2 := ranges ++ [startPos + i * count]
       if i % c = 0 then
         let results := ranges2.map fun p => (p, req p)
         let ne := results.filter fun pr => decide (0 < pr.2.length)
         if ne.length = 0 then []
         else
           let fd := deliverFold count ne
           if fd.1 then fd.2 ++ batchLoop req startPos count c fuel (i + 1) []
           else fd.2
       else batchLoop req startPos count c fuel (i + 1) ranges2) := rfl

/-- The delivered `(startPos, page)` pairs of the dispatch loop carry
strictly increasing positions, and every position is at least the first
position of the pending window block. -/
theorem batchLoop_pairwise (req : Nat → List Nat) (startPos count c : Nat)
    (hcount : 1 ≤ count) :
    ∀ (fuel i j0 : Nat), j0 ≤ i →
      ((batchLoop req startPos count c fuel i
          ((List.range' j0 (i - j0)).map fun j => startPos + j * count)).map
        Prod.fst).Pairwise (· < ·)
      ∧ ∀ pr ∈ batchLoop req startPos count c fuel i
            ((List.range' j0 (i - j0)).map fun j => startPos + j * count),
          startPos + j0 * count ≤ pr.1 := by
  intro fuel
  induction fuel with
  | zero =>
    intro i j0 _
    constructor
    · exact List.Pairwise.nil
    · intro pr hpr
      simp [batchLoop] at hpr
  | succ fuel ih =>
    intro i j0 hj0
    have hr2 : ((List.range' j0 (i - j0)).map fun j => startPos + j * count) ++
        [startPos + i * count] =
        (List.range' j0 (i - j0 + 1)).map fun j => startPos + j * count := by
      have hj : j0 + 1 * (i - j0) = i := by omega
      rw [List.range'_concat, hj, List.map_append]
      rfl
    have hmem2 : ∀ x ∈ (List.range' j0 (i - j0 + 1)).map fun j => startPos + j * count,
        startPos + j0 * count ≤ x ∧ x ≤ startPos + i * count := by
      intro x hx
      obtain ⟨j, hj, rfl⟩ := List.mem_map.mp hx
      rw [List.mem_range'_1] at hj
      have hle : j0 ≤ j ∧ j ≤ i := by omega
      exact ⟨Nat.add_le_add_left (Nat.mul_le_mul_right count hle.1) startPos,
        Nat.add_le_add_left (Nat.mul_le_mul_right count hle.2) startPos⟩
    have hpair2 : ((List.range' j0 (i - j0 + 1)).map fun j =>
        startPos + j * count).Pairwise (· < ·) := by
      refine List.Pairwise.map _ ?_ (List.pairwise_lt_range' j0 (i - j0 + 1) 1 (by omega))
      intro a b hab
      exact Nat.add_lt_add_left (Nat.mul_lt_mul_of_pos_right hab (by omega)) startPos
    rw [batchLoop_succ]
    simp only [hr2]
    by_cases hic : i % c = 0
    · rw [if_pos hic]
      set ne := (((List.range' j0 (i - j0 + 1)).map fun j => startPos + j * count).map
        fun p => (p, req p)).filter fun pr => decide (0 < pr.2.length) with hne
      by_cases hz : ne.length = 0
      · rw [if_pos hz]
        exact ⟨List.Pairwise.nil, fun pr hpr => absurd hpr (List.not_mem_nil pr)⟩
      · rw [if_neg hz, deliverFold_spec]
        have hsubne : List.Sublist (takeThru (fun pr => decide (count ≤ pr.2.length)) ne)
            (((List.range' j0 (i - j0 + 1)).map fun j => startPos + j * count).map
              fun p => (p, req p)) :=
          (takeThru_sublist _ ne).trans (by rw [hne]; exact List.filter_sublist _)
        have hfst : (((List.range' j0 (i - j0 + 1)).map fun j =>
            startPos + j * count).map fun p => (p, req p)).map Prod.fst =
            (List.range' j0 (i - j0 + 1)).map fun j => startPos + j * count := by
          rw [List.map_map]
          simp
        have hdel_pair : ((takeThru (fun pr => decide (count ≤ pr.2.length)) ne).map
            Prod.fst).Pairwise (· < ·) :=
          List.Pairwise.sublist (hsubne.map Prod.fst) (by rw [hfst]; exact hpair2)
        have hdel_bound : ∀ pr ∈ takeThru (fun pr => decide (count ≤ pr.2.length)) ne,
            startPos + j0 * count ≤ pr.1 ∧ pr.1 ≤ startPos + i * count := by
          intro pr hpr
          have hprm : pr ∈ ((List.range' j0 (i - j0 + 1)).map fun j =>
              startPos + j * count).map fun p => (p, req p) :=
            hsubne.subset hpr
          obtain ⟨p, hp, rfl⟩ := List.mem_map.mp hprm
          exact hmem2 p hp
        by_cases hfull : (ne.all fun pr => decide (count ≤ pr.2.length)) = true
        · rw [hfull, if_pos rfl]
          have hrec := ih (i + 1) (i + 1) (Nat.le_refl (i + 1))
          rw [show (i + 1) - (i + 1) = 0 by omega] at hrec
          simp only [List.range', List.map_nil] at hrec
          constructor
          · rw [List.map_append]
            rw [List.pairwise_append]
            refine ⟨hdel_pair, hrec.1, ?_⟩
            intro a ha b hb
            obtain ⟨pra, hpra, rfl⟩ := List.mem_map.mp ha
            obtain ⟨prb, hprb, rfl⟩ := List.mem_map.mp hb
            have ha2 := (hdel_bound pra hpra).2
            have hb2 := hrec.2 prb hprb
            have hd : (i + 1) * count = i * count + count := by ring
            omega
          · intro pr hpr
            rcases List.mem_append.mp hpr with h | h
            · exact (hdel_bound pr h).1
            · have := hrec.2 pr h
              have hmono : startPos + j0 * count ≤ startPos + (i + 1) * count :=
                Nat.add_le_add_left (Nat.mul_le_mul_right count (by omega)) startPos
              omega
        · rw [Bool.not_eq_true] at hfull
          rw [hfull, if_neg (by simp)]
          exact ⟨hdel_pair, fun pr hpr => (hdel_bound pr hpr).1⟩
    · rw [if_neg hic]
      have := ih (i + 1) j0 (by omega)
      rw [show (i + 1) - j0 = i - j0 + 1 by omega] at this
      exact this

/-- C2, amended: `getAllActionsBatch` delivers pages to `onPage` in strictly
increasing `startPos` order.  Within a batch, empty (zero-row) pages are
discarded before the delivery walk, so a page positioned after an empty page
is still delivered; among the remaining non-empty pages, delivery proceeds
in submission order up to and including the first short page
(`rows.length < pageSize`), after which no further page of the batch is
delivered and no further batch is dispatched. -/
theorem c2_batch_delivery_amended (req : Nat → List Nat)
    (startPos count c fuel : Nat) (hcount : 1 ≤ count) :
    List.Chain' (· < ·) ((getAllActionsBatch req startPos count c fuel).map Prod.fst)
    ∧ ∀ ne, deliverFold count ne =
        (ne.all fun pr => decide (count ≤ pr.2.length),
         takeThru (fun pr => decide (count ≤ pr.2.length)) ne) := by
  constructor
  · have h := (batchLoop_pairwise req startPos count c hcount fuel 0 0
      (Nat.le_refl 0)).1
    simp only [Nat.sub_self, List.range', List.map_nil] at h
    exact h.chain'
  · intro ne
    exact deliverFold_spec count ne

/-- C2, witness for the amended claim, at the `reqGap` scenario: delivered
positions `0 < 2 < 6` are strictly increasing, and the delivery `reduce`
over a full page followed by an empty page stops with accumulator
`false` after delivering both listed entries. -/
theorem c2_batch_delivery_amended_witness :
    List.Chain' (· < ·) ((getAllActionsBatch reqGap 0 2 3 4).map Prod.fst)
    ∧ deliverFold 2 [(0, [0, 1]), (4, [])] =
        ([(0, [0, 1]), (4, [])].all fun pr => decide (2 ≤ pr.2.length),
         takeThru (fun pr => decide (2 ≤ pr.2.length)) [(0, [0, 1]), (4, [])]) :=
  ⟨(c2_batch_delivery_amended reqGap 0 2 3 4 (by decide)).1,
   (c2_batch_delivery_amended reqGap 0 2 3 4 (by decide)).2 [(0, [0, 1]), (4, [])]⟩

/-! ## Lemmas for the hinted RangePartitioner scan -/

/-- Every row produced by the `Require` recursion lies in the table and in
the requested range, for any fuel and page cap. -/
theorem requireScanFuel_mem (table : List Nat) (cap : Nat) :
    ∀ (fuel l u x : Nat), x ∈ requireScanFuel table cap fuel l u →
      x ∈ table ∧ l ≤ x ∧ x ≤ u := by
  intro fuel
  induction fuel with
  | zero => intro l u x hx; simp [requireScanFuel] at hx
  | succ fuel ih =>
    intro l u x hx
    by_cases hul : u ≤ l
    · simp [requireScanFuel, hul] at hx
    · simp only [requireScanFuel, if_neg hul] at hx
      by_cases htr : (pageQuery table cap l u).2 = true
      · rw [if_pos htr] at hx
        have hm : l + 1 ≤ midPoint l u ∧ midPoint l u ≤ u := by
          simp only [midPoint]
          omega
        rcases List.mem_append.mp hx with h | h
        · obtain ⟨hxt, hlx, hxu⟩ := ih l (midPoint l u - 1) x h
          exact ⟨hxt, hlx, by omega⟩
        · obtain ⟨hxt, hlx, hxu⟩ := ih (midPoint l u) u x h
          exact ⟨hxt, by omega, hxu⟩
      · rw [if_neg htr] at hx
        have hxf : x ∈ table.filter fun k => decide (l ≤ k) && decide (k ≤ u) := by
          by_cases hlen :
              (table.filter fun k => decide (l ≤ k) && decide (k ≤ u)).length ≤ cap
          · simpa only [pageQuery, if_pos hlen] using hx
          · exfalso
            apply htr
            simp only [pageQuery, if_neg hlen]
        have := List.mem_filter.mp hxf
        simp only [Bool.and_eq_true, decide_eq_true_eq] at this
        exact ⟨this.1, this.2.1, this.2.2⟩

/-- A range whose content fits in one page is answered by a single
untruncated query. -/
theorem requireScanFuel_untruncated (table : List Nat) (cap fuel l u : Nat)
    (hlu : l < u)
    (hlen : (table.filter fun k => decide (l ≤ k) && decide (k ≤ u)).length ≤ cap) :
    requireScanFuel table cap (fuel + 1) l u =
      table.filter fun k => decide (l ≤ k) && decide (k ≤ u) := by
  simp only [requireScanFuel, if_neg (Nat.not_le.mpr hlu)]
  have h2 : (pageQuery table cap l u).2 = false := by
    simp only [pageQuery, if_pos hlen]
  rw [h2, if_neg (by simp)]
  simp only [pageQuery, if_pos hlen]

/-- The default of `getLast?` shifts under `cons`. -/
theorem getLast_getD_cons (l b : Nat) (bs : List Nat) :
    (b :: bs).getLast?.getD l = bs.getLast?.getD b := by
  cases bs with
  | nil => rfl
  | cons c cs =>
    rw [List.getLast?_cons_cons]
    cases h : (c :: cs).getLast? with
    | none => exact absurd (List.getLast?_eq_none_iff.mp h) (by simp)
    | some a => rfl

/-- Soundness of the hinted segment scan: every produced row is a table row
lying between the starting boundary and the global upper bound. -/
theorem segmentScan_mem (table : List Nat) (cap u0 : Nat) :
    ∀ (bs : List Nat) (l x : Nat), (∀ b ∈ bs, b ≤ u0) →
      List.Chain' (· ≤ ·) (l :: bs) →
      x ∈ segmentScan table cap l bs → x ∈ table ∧ l ≤ x ∧ x ≤ u0 := by
  intro bs
  induction bs with
  | nil => intro l x _ _ hx; simp [segmentScan] at hx
  | cons b bs ih =>
    intro l x hbu hch hx
    have hlb : l ≤ b := (List.chain'_cons.mp hch).1
    have hch2 : List.Chain' (· ≤ ·) (b :: bs) := (List.chain'_cons.mp hch).2
    simp only [segmentScan] at hx
    rcases List.mem_append.mp hx with h | h
    · obtain ⟨hxt, hlx, hxb⟩ := requireScanFuel_mem table cap (b - l + 1) l b x h
      exact ⟨hxt, hlx, le_trans hxb (hbu b (List.mem_cons_self b bs))⟩
    · obtain ⟨hxt, hbx, hxu⟩ :=
        ih b x (fun b2 hb2 => hbu b2 (List.mem_cons_of_mem b hb2)) hch2 h
      exact ⟨hxt, le_trans hlb hbx, hxu⟩

/-- Completeness of the hinted segment scan up to its starting boundary:
a table row within the boundary span is produced, unless it sits exactly on
the starting boundary. -/
theorem segmentScan_complete (table : List Nat) (cap l0 u0 : Nat)
    (hcapall : ∀ a b : Nat, l0 ≤ a → b ≤ u0 →
      (table.filter fun k => decide (a ≤ k) && decide (k ≤ b)).length ≤ cap) :
    ∀ (bs : List Nat) (l x : Nat),
      List.Chain' (· ≤ ·) (l :: bs) → l0 ≤ l → (∀ b ∈ bs, b ≤ u0) →
      x ∈ table → l ≤ x → x ≤ bs.getLast?.getD l →
      x ∈ segmentScan table cap l bs ∨ x = l := by
  intro bs
  induction bs with
  | nil =>
    intro l x _ _ _ _ hlx hxl
    right
    simp only [List.getLast?_nil, Option.getD_none] at hxl
    omega
  | cons b bs ih =>
    intro l x hch hl0 hbu hxt hlx hxlast
    have hlb : l ≤ b := (List.chain'_cons.mp hch).1
    have hch2 : List.Chain' (· ≤ ·) (b :: bs) := (List.chain'_cons.mp hch).2
    rw [getLast_getD_cons l b bs] at hxlast
    by_cases hxb : x ≤ b
    · rcases Nat.lt_or_ge l b with hlb2 | hlb2
      · left
        simp only [segmentScan]
        apply List.mem_append.mpr
        left
        rw [requireScanFuel_untruncated table cap (b - l) l b hlb2
          (hcapall l b hl0 (hbu b (List.mem_cons_self b bs)))]
        refine List.mem_filter.mpr ⟨hxt, ?_⟩
        simp only [Bool.and_eq_true, decide_eq_true_eq]
        omega
      · right
        omega
    · have := ih b x hch2 (le_trans hl0 hlb)
        (fun b2 hb2 => hbu b2 (List.mem_cons_of_mem b hb2)) hxt (by omega) hxlast
      rcases this with h | h
      · left
        simp only [segmentScan]
        exact List.mem_append.mpr (Or.inr h)
      · exact absurd h.le hxb

/-- The starting boundary itself, when it is a table row and the boundary
span is non-degenerate, is produced by the hinted segment scan. -/
theorem segmentScan_head_mem (table : List Nat) (cap l0 u0 : Nat)
    (hcapall : ∀ a b : Nat, l0 ≤ a → b ≤ u0 →
      (table.filter fun k => decide (a ≤ k) && decide (k ≤ b)).length ≤ cap) :
    ∀ (bs : List Nat) (l : Nat),
      List.Chain' (· ≤ ·) (l :: bs) → l0 ≤ l → (∀ b ∈ bs, b ≤ u0) →
      l ∈ table → l < bs.getLast?.getD l →
      l ∈ segmentScan table cap l bs := by
  intro bs
  induction bs with
  | nil =>
    intro l _ _ _ _ hlt
    simp only [List.getLast?_nil, Option.getD_none] at hlt
    omega
  | cons b bs ih =>
    intro l hch hl0 hbu hlt hlast
    have hlb : l ≤ b := (List.chain'_cons.mp hch).1
    have hch2 : List.Chain' (· ≤ ·) (b :: bs) := (List.chain'_cons.mp hch).2
    rcases Nat.lt_or_ge l b with hlb2 | hlb2
    · simp only [segmentScan]
      apply List.mem_append.mpr
      left
      rw [requireScanFuel_untruncated table cap (b - l) l b hlb2
        (hcapall l b hl0 (hbu b (List.mem_cons_self b bs)))]
      refine List.mem_filter.mpr ⟨hlt, ?_⟩
      simp only [Bool.and_eq_true, decide_eq_true_eq]
      omega
    · have heq : l = b := by omega
      subst heq
      simp only [segmentScan]
      apply List.mem_append.mpr
      right
      rw [getLast_getD_cons l l bs] at hlast
      exact ih l hch2 hl0 (fun b2 hb2 => hbu b2 (List.mem_cons_of_mem l hb2)) hlt hlast

/-- C7, amended: when the full-range content fits within one page
(`|table ∩ [l, u]| ≤ maxPageSize`), the scan with any valid ascending hint
sequence inside `[l, u]` returns the same final set as the scan with no
hints (both equal the table's rows in `[l, u]`); without that proviso the
hinted and unhinted scans can return different sets (see the
counterexample), since adjacent hint segments share their boundary key and a
truncating hinted sub-range can lose keys that the unhinted bisection
keeps. -/
theorem c7_hints_amended (table : List Nat) (cap l u : Nat) (hints : List Nat)
    (hch : List.Chain' (· ≤ ·) (l :: (hints ++ [u])))
    (hlu : l < u)
    (hcap : (table.filter fun k => decide (l ≤ k) && decide (k ≤ u)).length ≤ cap) :
    (getTableAllScan table cap l u hints).toFinset =
      (getTableAllScan table cap l u []).toFinset := by
  have hpw : List.Pairwise (· ≤ ·) (l :: (hints ++ [u])) :=
    List.chain'_iff_pairwise.mp hch
  have hpw2 : List.Pairwise (· ≤ ·) (hints ++ [u]) := (List.pairwise_cons.mp hpw).2
  have hbu : ∀ b ∈ hints ++ [u], b ≤ u := by
    intro b hb
    rcases List.mem_append.mp hb with h | h
    · exact (List.pairwise_append.mp hpw2).2.2 b h u (by simp)
    · simp only [List.mem_singleton] at h
      omega
  have hcapall : ∀ a b : Nat, l ≤ a → b ≤ u →
      (table.filter fun k => decide (a ≤ k) && decide (k ≤ b)).length ≤ cap := by
    intro a b ha hb
    refine le_trans (List.Sublist.length_le ?_) hcap
    apply List.monotone_filter_right
    intro k hk
    simp only [Bool.and_eq_true, decide_eq_true_eq] at hk ⊢
    omega
  have hrhs : getTableAllScan table cap l u [] =
      table.filter fun k => decide (l ≤ k) && decide (k ≤ u) :=
    requireScanFuel_untruncated table cap (u - l) l u hlu hcap
  cases hints with
  | nil => rfl
  | cons h1 hs =>
    have hlhs : getTableAllScan table cap l u (h1 :: hs) =
        segmentScan table cap l ((h1 :: hs) ++ [u]) := by
      simp [getTableAllScan]
    rw [hlhs, hrhs]
    have hlastu : ((h1 :: hs) ++ [u]).getLast?.getD l = u := by
      rw [List.getLast?_concat]
      rfl
    ext x
    simp only [List.mem_toFinset, List.mem_filter, Bool.and_eq_true, decide_eq_true_eq]
    constructor
    · intro hx
      exact segmentScan_mem table cap u ((h1 :: hs) ++ [u]) l x hbu hch hx
    · rintro ⟨hxt, hlx, hxu⟩
      have hdisj := segmentScan_complete table cap l u hcapall ((h1 :: hs) ++ [u]) l x
        hch (Nat.le_refl l) hbu hxt hlx (by rw [hlastu]; exact hxu)
      rcases hdisj with h | h
      · exact h
      · subst h
        exact segmentScan_head_mem table cap x u hcapall ((h1 :: hs) ++ [u]) x hch
          (Nat.le_refl x) hbu hxt (by rw [hlastu]; exact hlu)

/-- C7, witness: with page cap 12, table keys `{0,...,9}` and range
`[0, 10]`, the scan hinted at `[5]` and the unhinted scan return the same
final set. -/
theorem c7_hints_amended_witness :
    (getTableAllScan (List.range 10) 12 0 10 [5]).toFinset =
      (getTableAllScan (List.range 10) 12 0 10 []).toFinset :=
  c7_hints_amended (List.range 10) 12 0 10 [5]
    (List.chain'_iff_pairwise.mpr (by decide)) (by decide) (by decide)

end EosPlayer
